import Mathlib

/- Formal model of the path-based automatic label assignment engine
   (packages/shared/src/labels/path-rules): the path matcher, rule
   evaluator, label merger and rule store, together with theorems about
   their specified properties.  Paths are modelled as strings over the
   posix platform (process.platform is not 'win32', separator '/'). -/

namespace PathRules

/-- Split a character list at '/' separators, `acc` holding the characters of
the current segment in reverse.  Models the segment view of a posix path
string (as in JS `s.split('/')`). -/
def splitOnSlash : List Char → List Char → List String
  | [], acc => [String.mk acc.reverse]
  | c :: cs, acc =>
    if c == '/' then String.mk acc.reverse :: splitOnSlash cs []
    else splitOnSlash cs (c :: acc)

/-- The list of '/'-separated segments of a path string. -/
def pathSegs (s : String) : List String := splitOnSlash s.data []

/-- Character-wise prefix test, first list against the second. -/
def charsStartWith : List Char → List Char → Bool
  | [], _ => true
  | _ :: _, [] => false
  | p :: ps, c :: cs => p == c && charsStartWith ps cs

/-- JS `s.startsWith(pre)`: `pre` is a character-wise prefix of `s`. -/
def strStartsWith (s pre : String) : Bool := charsStartWith pre.data s.data

/-- Node `path.posix.isAbsolute`: nonempty and beginning with '/'. -/
def posixIsAbsolute (p : String) : Bool :=
  match p.data with
  | '/' :: _ => true
  | _ => false

/-- True when the last character of `s` is '/'. -/
def lastCharIsSlash (s : String) : Bool :=
  match s.data.getLast? with
  | some c => c == '/'
  | none => false

/-- Segment-level model of Node's `normalizeString`: empty and `"."` segments
are dropped; `".."` pops the previously kept segment, and when there is none
(or the previously kept segment is itself `".."`) it is kept iff
`allowAboveRoot`.  `stack` holds the already-kept segments in reverse. -/
def normSegs (allowAboveRoot : Bool) (stack : List String) : List String → List String
  | [] => stack.reverse
  | seg :: rest =>
    if seg == "" || seg == "." then normSegs allowAboveRoot stack rest
    else if seg == ".." then
      match stack with
      | [] => normSegs allowAboveRoot (if allowAboveRoot then [".."] else []) rest
      | top :: tl =>
        if top == ".." then
          normSegs allowAboveRoot (if allowAboveRoot then ".." :: stack else stack) rest
        else normSegs allowAboveRoot tl rest
    else normSegs allowAboveRoot (seg :: stack) rest

/-- Join segments with '/' separators. -/
def joinSegs : List String → String
  | [] => ""
  | [s] => s
  | s :: rest => s ++ "/" ++ joinSegs rest

/-- Node `path.posix.resolve(p)` with a single argument, `cwd` standing for
`process.cwd()` (always an absolute path in Node).  An absolute `p` stands
alone, otherwise `p` is resolved against `cwd`; the joined string is then
segment-normalized. -/
def posixResolve (cwd p : String) : String :=
  let resolvedPath := if posixIsAbsolute p then p else cwd ++ "/" ++ p
  let resolvedAbsolute := posixIsAbsolute resolvedPath
  let core := joinSegs (normSegs (!resolvedAbsolute) [] (pathSegs resolvedPath))
  if resolvedAbsolute then "/" ++ core
  else if core == "" then "." else core

/-- Node `path.posix.normalize`. -/
def posixNormalize (p : String) : String :=
  if p == "" then "."
  else
    let isAbs := posixIsAbsolute p
    let trailingSep := lastCharIsSlash p
    let core := joinSegs (normSegs (!isAbs) [] (pathSegs p))
    if core == "" then
      if isAbs then "/" else if trailingSep then "./" else "."
    else
      let core' := if trailingSep then core ++ "/" else core
      if isAbs then "/" ++ core' else core'

/-- `normalizePath` from evaluator.ts: `path.normalize(path.resolve(inputPath))`
on the posix platform (`process.platform` is not `'win32'`, so there is no
lower-casing step). -/
def normalizePath (cwd inputPath : String) : String :=
  posixNormalize (posixResolve cwd inputPath)

/-- Length of the longest common prefix of two segment lists. -/
def commonPrefixLength : List String → List String → Nat
  | a :: as, b :: bs => if a == b then commonPrefixLength as bs + 1 else 0
  | _, _ => 0

/-- Node `path.posix.relative` on canonical absolute inputs (the form produced
by `normalizePath`), stated at the segment level: strip the longest common
segment prefix, go up once per remaining `fromPath` segment, then descend the
remaining `toPath` segments. -/
def posixRelative (fromPath toPath : String) : String :=
  if fromPath == toPath then ""
  else
    let fromSegs := (pathSegs fromPath).filter (fun s => s != "")
    let toSegs := (pathSegs toPath).filter (fun s => s != "")
    let k := commonPrefixLength fromSegs toSegs
    joinSegs (List.replicate (fromSegs.length - k) ".." ++ toSegs.drop k)

/-- Path matching mode, from types.ts (`PathMatchMode = 'exact' | 'prefix'`).
The constructor `pfx` embeds the source's `'prefix'` mode. -/
inductive PathMatchMode where
  | exact
  | pfx
deriving DecidableEq, Repr

/-- A single path-to-label mapping rule, from types.ts.  The source field
`match` is rendered as `matchMode` (the spec's name for it) because `match`
is reserved in Lean. -/
structure PathRule where
  id : String
  path : String
  matchMode : PathMatchMode
  labelId : String
  value : Option String
  enabled : Option Bool
  description : Option String
deriving DecidableEq, Repr

/-- Path rules configuration, from types.ts (`{version: 1, rules: PathRule[]}`). -/
structure PathRulesConfig where
  version : Nat
  rules : List PathRule
deriving DecidableEq, Repr

/-- Result of evaluating path rules, from types.ts. -/
structure PathRuleMatch where
  rule : PathRule
  labelEntry : String
deriving DecidableEq, Repr

/-- Modelled from the spec: the label-definition tree type `LabelConfig`
(labels/types.ts is not among the analysed sources) — a forest of nodes each
with `{id: string, children?: [...]}`; only `id` and `children` are consumed
by this engine. -/
inductive LabelConfig where
  | node (id : String) (children : Option (List LabelConfig))

/-- `findLabelById` from evaluator.ts: recursive first-match search of the
label tree by id — a node's own id first, then its children (when the
`children` field is present), then its later siblings. -/
def findLabelById : List LabelConfig → String → Option LabelConfig
  | [], _ => none
  | LabelConfig.node i cs :: rest, labelId =>
    if i == labelId then some (LabelConfig.node i cs)
    else
      match cs with
      | some children =>
        match findLabelById children labelId with
        | some found => some found
        | none => findLabelById rest labelId
      | none => findLabelById rest labelId

/-- `matchesPath` from evaluator.ts.  `cwd` models `process.cwd()`, consulted
by `path.resolve` when an input path is relative. -/
def matchesPath (cwd rulePath workingDirectory : String) (mode : PathMatchMode) : Bool :=
  let normalizedRule := normalizePath cwd rulePath
  let normalizedWorkDir := normalizePath cwd workingDirectory
  match mode with
  | .exact => normalizedRule == normalizedWorkDir
  | .pfx =>
    let rel := posixRelative normalizedRule normalizedWorkDir
    rel == "" || (!strStartsWith rel ".." && !posixIsAbsolute rel)

/-- Stable insertion of a rule into a list already arranged by descending
`path.length`: the rule goes after every element with a strictly longer path
and before the first element whose path is not longer. -/
def insertByPathLength (r : PathRule) : List PathRule → List PathRule
  | [] => [r]
  | x :: xs =>
    if r.path.length < x.path.length then x :: insertByPathLength r xs
    else r :: x :: xs

/-- The sort in evaluatePathRules:
`[...enabledRules].sort((a, b) => b.path.length - a.path.length)`.
JS `Array.prototype.sort` is stable, and a stable sort under this comparator
is unique, so stable insertion sort by descending path length models it
exactly.  JS string `.length` counts UTF-16 code units; it is modelled by the
character count, which agrees on all non-astral text. -/
def sortByPathLengthDesc (rules : List PathRule) : List PathRule :=
  rules.foldr insertByPathLength []

/-- The label entry built for a rule:
`rule.value ? labelId + '::' + value : labelId`, where JS truthiness makes an
empty-string value fall back to the bare labelId. -/
def ruleLabelEntry (rule : PathRule) : String :=
  match rule.value with
  | some v => if v == "" then rule.labelId else rule.labelId ++ "::" ++ v
  | none => rule.labelId

/-- The main loop of `evaluatePathRules` over the sorted rules, with `seen`
the set of already-produced label entries (`seenLabelEntries`). -/
def evalLoop (cwd wd : String) (labels : Option (List LabelConfig)) :
    List PathRule → List String → List PathRuleMatch
  | [], _ => []
  | rule :: rest, seen =>
    if !matchesPath cwd rule.path wd rule.matchMode then
      evalLoop cwd wd labels rest seen
    else if (match labels with
             | some ls => (findLabelById ls rule.labelId).isNone
             | none => false) then
      evalLoop cwd wd labels rest seen
    else
      let labelEntry := ruleLabelEntry rule
      if seen.contains labelEntry then
        evalLoop cwd wd labels rest seen
      else
        { rule := rule, labelEntry := labelEntry } :: evalLoop cwd wd labels rest (labelEntry :: seen)

/-- `evaluatePathRules` from evaluator.ts.  `workingDirectory` is
`string | undefined`; JS `!workingDirectory` is also true for the empty
string, so `some ""` short-circuits like `none`. -/
def evaluatePathRules (cwd : String) (workingDirectory : Option String)
    (config : PathRulesConfig) (labels : Option (List LabelConfig)) : List PathRuleMatch :=
  match workingDirectory with
  | none => []
  | some wd =>
    if wd == "" then []
    else
      let enabledRules := config.rules.filter (fun rule => rule.enabled != some false)
      let sortedRules := sortByPathLengthDesc enabledRules
      evalLoop cwd wd labels sortedRules []

/-- Characters of `labelEntry.split('::')[0]`: everything before the first
occurrence of `"::"`. -/
def bareIdChars : List Char → List Char
  | [] => []
  | ':' :: ':' :: _ => []
  | c :: rest => c :: bareIdChars rest

/-- The bare id of a label entry: `labelEntry.split('::')[0]`. -/
def bareIdOf (labelEntry : String) : String := String.mk (bareIdChars labelEntry.data)

/-- The `newLabels` staged by the loop in `applyPathRuleMatches`: a match is
staged unless its exact entry is already in `existingLabels`, or some
existing label equals its bare id or starts with `bareId + "::"`.  The
membership set is built once from the input and never extended inside the
loop. -/
def stagedNewLabels (existingLabels : List String) : List PathRuleMatch → List String
  | [] => []
  | m :: rest =>
    if existingLabels.any (fun l => l == m.labelEntry) then
      stagedNewLabels existingLabels rest
    else if existingLabels.any (fun l =>
        l == bareIdOf m.labelEntry || strStartsWith l (bareIdOf m.labelEntry ++ "::")) then
      stagedNewLabels existingLabels rest
    else
      m.labelEntry :: stagedNewLabels existingLabels rest

/-- `applyPathRuleMatches` from evaluator.ts: additive merge of match entries
into the session labels array (`string[] | undefined`). -/
def applyPathRuleMatches (currentLabels : Option (List String))
    (matchList : List PathRuleMatch) : Option (List String) :=
  match matchList with
  | [] => currentLabels
  | _ =>
    let newLabels := stagedNewLabels (currentLabels.getD []) matchList
    if newLabels.isEmpty then currentLabels
    else some (currentLabels.getD [] ++ newLabels)

/-- JSON values, modelling what `JSON.parse` can produce for the stored
rules document.  Numbers are modelled as integers (only the `version` field
uses them here). -/
inductive Json where
  | null
  | bool (b : Bool)
  | num (n : Int)
  | str (s : String)
  | arr (items : List Json)
  | obj (fields : List (String × Json))

/-- First-wins lookup of a key among an object's fields (`JSON.parse` output
has unique keys, so first-wins and last-wins coincide on parsed documents). -/
def jsonGet (fields : List (String × Json)) (key : String) : Option Json :=
  match fields with
  | [] => none
  | (k, v) :: rest => if k == key then some v else jsonGet rest key

/-- `isValidRule` from storage.ts: the raw entry must be an object with
string `id`, string `path`, `match` equal to `'exact'` or `'prefix'`, and
string `labelId`. -/
def isValidRule (rule : Json) : Bool :=
  match rule with
  | Json.obj fields =>
    (match jsonGet fields "id" with | some (Json.str _) => true | _ => false) &&
    (match jsonGet fields "path" with | some (Json.str _) => true | _ => false) &&
    (match jsonGet fields "match" with
     | some (Json.str s) => s == "exact" || s == "prefix"
     | _ => false) &&
    (match jsonGet fields "labelId" with | some (Json.str _) => true | _ => false)
  | _ => false

/-- The string held by a JSON value, when it is a string. -/
def jsonStr? : Option Json → Option String
  | some (Json.str s) => some s
  | _ => none

/-- The typed `PathRule` view of a raw rule object that passed `isValidRule`
(the TS code keeps the raw object, whose declared type is `PathRule`). -/
def jsonToRule (j : Json) : PathRule :=
  match j with
  | Json.obj fields =>
    { id := (jsonStr? (jsonGet fields "id")).getD ""
      path := (jsonStr? (jsonGet fields "path")).getD ""
      matchMode :=
        match jsonGet fields "match" with
        | some (Json.str s) => if s == "exact" then .exact else .pfx
        | _ => .pfx
      labelId := (jsonStr? (jsonGet fields "labelId")).getD ""
      value := jsonStr? (jsonGet fields "value")
      enabled :=
        match jsonGet fields "enabled" with
        | some (Json.bool b) => some b
        | _ => none
      description := jsonStr? (jsonGet fields "description") }
  | _ => { id := "", path := "", matchMode := .exact, labelId := ""
           value := none, enabled := none, description := none }

/-- `createDefaultConfig` from storage.ts. -/
def createDefaultConfig : PathRulesConfig :=
  { version := 1, rules := [] }

/-- `loadPathRulesConfig` from storage.ts.  The `document` parameter models
the filesystem/JSON boundary: `none` is an absent file (`existsSync` false);
`some none` is a file whose read or `JSON.parse` threw (caught, default
returned); `some (some j)` is the parsed JSON value.  A non-object,
non-array parse result fails the `typeof` check and yields the default; a
top-level array passes the `typeof` check but has no `rules` field.  Valid
rule entries are kept in their original order, invalid ones are dropped. -/
def loadPathRulesConfig (document : Option (Option Json)) : PathRulesConfig :=
  match document with
  | none => createDefaultConfig
  | some none => createDefaultConfig
  | some (some parsed) =>
    match parsed with
    | Json.obj fields =>
      { version := 1
        rules :=
          match jsonGet fields "rules" with
          | some (Json.arr rs) => (rs.filter isValidRule).map jsonToRule
          | _ => [] }
    | Json.arr _ => { version := 1, rules := [] }
    | _ => createDefaultConfig

/-- The stated wording of the claim about prefix-mode matching: the relative
path from rule path to working directory is empty, or its first *segment* is
not the parent-traversal segment ".." and it is not itself absolute. -/
def firstSegment (s : String) : String := (pathSegs s).headD ""

/-- Prefix-mode matching as the specification words it ("does not start with
a parent-traversal segment"): the `..` test is made at the segment boundary
instead of the code's character-wise `rel.startsWith('..')`. -/
def matchesPathSpecPfx (cwd rulePath workingDirectory : String) : Bool :=
  let rel := posixRelative (normalizePath cwd rulePath) (normalizePath cwd workingDirectory)
  rel == "" || (!(firstSegment rel == "..") && !posixIsAbsolute rel)

/- Concrete fixtures used by the claim theorems. -/

/-- An enabled bare-label rule for `/a` (label `X`), prefix mode. -/
def ruleX : PathRule :=
  { id := "rx", path := "/a", matchMode := .pfx, labelId := "X",
    value := none, enabled := none, description := none }

/-- An enabled bare-label rule for `/a/b` (label `Y`), prefix mode. -/
def ruleY : PathRule :=
  { id := "ry", path := "/a/b", matchMode := .pfx, labelId := "Y",
    value := none, enabled := none, description := none }

/-- Rule set holding `ruleX` before `ruleY`. -/
def xyConfig : PathRulesConfig := { version := 1, rules := [ruleX, ruleY] }

/-- A prefix rule for `/a` proposing the valued label `priority::2`. -/
def rule2 : PathRule :=
  { id := "r2", path := "/a", matchMode := .pfx, labelId := "priority",
    value := some "2", enabled := none, description := none }

/-- A prefix rule for `/a` proposing the valued label `priority::3`. -/
def rule3 : PathRule :=
  { id := "r3", path := "/a", matchMode := .pfx, labelId := "priority",
    value := some "3", enabled := none, description := none }

/-- Rule set holding the two equal-length `priority` rules. -/
def prioConfig : PathRulesConfig := { version := 1, rules := [rule2, rule3] }

/- Helper lemmas about the merger. -/

lemma any_beq_eq_true_iff (l : List String) (s : String) :
    (l.any fun x => x == s) = true ↔ s ∈ l := by
  simp [List.any_eq_true]

lemma any_mono {l l' : List String} {p : String → Bool}
    (sub : ∀ x ∈ l, x ∈ l') (h : l.any p = true) : l'.any p = true := by
  rw [List.any_eq_true] at h ⊢
  obtain ⟨x, hx, hp⟩ := h
  exact ⟨x, sub x hx, hp⟩

lemma charsStartWith_self_append (p q : List Char) :
    charsStartWith p (p ++ q) = true := by
  induction p with
  | nil => rfl
  | cons c cs ih => simp [charsStartWith, ih]

lemma strStartsWith_append (a b : String) : strStartsWith (a ++ b) a = true := by
  have hdata : (a ++ b).data = a.data ++ b.data := by
    cases a; cases b; rfl
  simp [strStartsWith, hdata, charsStartWith_self_append]

lemma stagedNewLabels_sublist (e : List String) (ms : List PathRuleMatch) :
    (stagedNewLabels e ms).Sublist (ms.map fun m => m.labelEntry) := by
  induction ms with
  | nil => simp [stagedNewLabels]
  | cons m rest ih =>
    simp only [stagedNewLabels, List.map_cons]
    split
    · exact ih.cons _
    · split
      · exact ih.cons _
      · exact ih.cons₂ _

lemma stagedNewLabels_eq_nil_of_covered :
    ∀ (ms : List PathRuleMatch) (e e' : List String),
      (∀ x ∈ e, x ∈ e') → (∀ x ∈ stagedNewLabels e ms, x ∈ e') →
      stagedNewLabels e' ms = [] := by
  intro ms
  induction ms with
  | nil => intro e e' _ _; rfl
  | cons m rest ih =>
    intro e e' cov covS
    by_cases h1 : (e.any fun l => l == m.labelEntry) = true
    · have h1' : (e'.any fun l => l == m.labelEntry) = true := any_mono cov h1
      have hskip : stagedNewLabels e (m :: rest) = stagedNewLabels e rest := by
        simp [stagedNewLabels, h1]
      rw [hskip] at covS
      simp only [stagedNewLabels, h1', if_true]
      exact ih e e' cov covS
    · by_cases h2 : (e.any fun l =>
          l == bareIdOf m.labelEntry || strStartsWith l (bareIdOf m.labelEntry ++ "::")) = true
      · have hskip : stagedNewLabels e (m :: rest) = stagedNewLabels e rest := by
          simp [stagedNewLabels, h1, h2]
        rw [hskip] at covS
        by_cases h1' : (e'.any fun l => l == m.labelEntry) = true
        · simp only [stagedNewLabels, h1', if_true]
          exact ih e e' cov covS
        · have h2' := any_mono cov h2
          simp only [stagedNewLabels, h1', h2', if_true, if_false, Bool.false_eq_true]
          exact ih e e' cov covS
      · have hpush : stagedNewLabels e (m :: rest)
            = m.labelEntry :: stagedNewLabels e rest := by
          simp [stagedNewLabels, h1, h2]
        rw [hpush] at covS
        have hmem : m.labelEntry ∈ e' := covS _ (List.mem_cons_self _ _)
        have h1' : (e'.any fun l => l == m.labelEntry) = true :=
          (any_beq_eq_true_iff e' m.labelEntry).mpr hmem
        simp only [stagedNewLabels, h1', if_true]
        exact ih e e' cov (fun x hx => covS x (List.mem_cons_of_mem _ hx))

lemma mem_stagedNewLabels_of_no_conflict :
    ∀ (ms : List PathRuleMatch) (current : List String) (m : PathRuleMatch),
      m ∈ ms →
      (current.any fun l => l == m.labelEntry) = false →
      (current.any fun l =>
          l == bareIdOf m.labelEntry || strStartsWith l (bareIdOf m.labelEntry ++ "::")) = false →
      m.labelEntry ∈ stagedNewLabels current ms := by
  intro ms
  induction ms with
  | nil => intro current m hm; exact absurd hm (List.not_mem_nil m)
  | cons x rest ih =>
    intro current m hm h1 h2
    rcases List.mem_cons.mp hm with heq | htail
    · subst heq
      simp [stagedNewLabels, h1, h2]
    · have hmem := ih current m htail h1 h2
      simp only [stagedNewLabels]
      split
      · exact hmem
      · split
        · exact hmem
        · exact List.mem_cons_of_mem _ hmem

lemma apply_twice_eq (current : Option (List String)) (ms : List PathRuleMatch) :
    stagedNewLabels ((applyPathRuleMatches current ms).getD []) ms = []
    ∧ applyPathRuleMatches (applyPathRuleMatches current ms) ms
        = applyPathRuleMatches current ms := by
  cases ms with
  | nil => exact ⟨rfl, rfl⟩
  | cons m rest =>
    cases hn : stagedNewLabels (current.getD []) (m :: rest) with
    | nil =>
      have happ : applyPathRuleMatches current (m :: rest) = current := by
        simp [applyPathRuleMatches, hn]
      constructor
      · rw [happ]; exact hn
      · rw [happ]; exact happ
    | cons a as =>
      have happ : applyPathRuleMatches current (m :: rest)
          = some (current.getD [] ++ a :: as) := by
        simp [applyPathRuleMatches, hn]
      have hcov := stagedNewLabels_eq_nil_of_covered (m :: rest) (current.getD [])
          (current.getD [] ++ a :: as)
          (fun x hx => List.mem_append_left _ hx)
          (fun x hx => List.mem_append_right _ (hn ▸ hx))
      constructor
      · rw [happ]
        simpa using hcov
      · rw [happ]
        simp [applyPathRuleMatches, hcov]

/-- C1: for every fixed working directory, rule config, optional label tree
and existing label list, running Evaluate+Apply twice yields the same final
label list as running it once, and the second Apply stages zero additions. -/
theorem evaluate_apply_idempotent :
    ∀ (cwd : String) (wd : Option String) (config : PathRulesConfig)
      (labels : Option (List LabelConfig)) (current : Option (List String)),
      applyPathRuleMatches
          (applyPathRuleMatches current (evaluatePathRules cwd wd config labels))
          (evaluatePathRules cwd wd config labels)
        = applyPathRuleMatches current (evaluatePathRules cwd wd config labels)
      ∧ stagedNewLabels
          ((applyPathRuleMatches current (evaluatePathRules cwd wd config labels)).getD [])
          (evaluatePathRules cwd wd config labels) = [] := by
  intro cwd wd config labels current
  have h := apply_twice_eq current (evaluatePathRules cwd wd config labels)
  exact ⟨h.2, h.1⟩

/-- C2: for every label list and match list, the output of Apply is the
input list with zero or more new entries appended at the end in match order
(the staged entries form an in-order sublist of the proposed entries); every
pre-existing entry keeps its original position and none is removed. -/
theorem apply_appends_staged_matches :
    ∀ (currentLabels : Option (List String)) (matchList : List PathRuleMatch),
      ∃ newLabels : List String,
        newLabels.Sublist (matchList.map fun m => m.labelEntry) ∧
          ((applyPathRuleMatches currentLabels matchList = currentLabels ∧ newLabels = []) ∨
            applyPathRuleMatches currentLabels matchList
              = some (currentLabels.getD [] ++ newLabels)) := by
  intro current ms
  refine ⟨stagedNewLabels (current.getD []) ms, stagedNewLabels_sublist _ _, ?_⟩
  cases ms with
  | nil => exact Or.inl ⟨rfl, rfl⟩
  | cons m rest =>
    cases hn : stagedNewLabels (current.getD []) (m :: rest) with
    | nil =>
      exact Or.inl ⟨by simp [applyPathRuleMatches, hn], rfl⟩
    | cons a as =>
      refine Or.inr ?_
      simp [applyPathRuleMatches, hn]

/-- C3 counterexample: one Evaluate call at `/a` produces two matches
proposing `priority::2` and then `priority::3`, the existing list has no
`priority` entry, and Apply adds BOTH entries — refuting the claim that only
the first is staged.  (The loop's membership set is built from the input
labels once and never extended with same-call staged entries.) -/
theorem apply_same_evaluation_values_both_added :
    evaluatePathRules "/" (some "/a") prioConfig none =
      [{ rule := rule2, labelEntry := "priority::2" },
       { rule := rule3, labelEntry := "priority::3" }] ∧
    applyPathRuleMatches (some []) (evaluatePathRules "/" (some "/a") prioConfig none)
      = some ["priority::2", "priority::3"] :=
  ⟨rfl, rfl⟩

/-- C3 amended: when the existing labels contain neither a match's exact
entry nor any entry sharing its bare id, that match is always staged — even
when another match in the same call shares the bare id with a different
value; the conflict check consults only the pre-existing labels. -/
theorem apply_stages_unconflicted_match :
    ∀ (current : List String) (matchList : List PathRuleMatch) (m : PathRuleMatch),
      m ∈ matchList →
      (current.any fun l => l == m.labelEntry) = false →
      (current.any fun l =>
          l == bareIdOf m.labelEntry || strStartsWith l (bareIdOf m.labelEntry ++ "::")) = false →
      m.labelEntry ∈ (applyPathRuleMatches (some current) matchList).getD [] := by
  intro current ms m hm h1 h2
  have hmem := mem_stagedNewLabels_of_no_conflict ms current m hm h1 h2
  cases ms with
  | nil => exact absurd hm (List.not_mem_nil m)
  | cons x rest =>
    cases hstag : stagedNewLabels current (x :: rest) with
    | nil => rw [hstag] at hmem; exact absurd hmem (List.not_mem_nil _)
    | cons a as =>
      rw [hstag] at hmem
      have happ : applyPathRuleMatches (some current) (x :: rest)
          = some (current ++ a :: as) := by
        simp [applyPathRuleMatches, hstag]
      rw [happ]
      exact List.mem_append_right _ hmem

/-- C3 amended, witness: with no existing labels, the second of two
same-bare-id matches (`priority::3` after `priority::2`) is itself staged
into the output. -/
theorem apply_stages_unconflicted_match_witness :
    "priority::3" ∈ (applyPathRuleMatches (some [])
        [{ rule := rule2, labelEntry := "priority::2" },
         { rule := rule3, labelEntry := "priority::3" }]).getD [] :=
  apply_stages_unconflicted_match []
    [{ rule := rule2, labelEntry := "priority::2" },
     { rule := rule3, labelEntry := "priority::3" }]
    { rule := rule3, labelEntry := "priority::3" }
    (by decide) (by decide) (by decide)

/-- C5: if every match's bare id already has a valued entry in the existing
labels, Apply returns the existing list unchanged — a second value for the
same bare id is never added. -/
theorem apply_keeps_existing_valued_label :
    ∀ (current : List String) (matchList : List PathRuleMatch),
      (∀ m ∈ matchList, ∃ v : String,
          bareIdOf m.labelEntry ++ "::" ++ v ∈ current) →
      applyPathRuleMatches (some current) matchList = some current := by
  intro current ms hconf
  have hstag : ∀ ms', (∀ m ∈ ms', ∃ v : String,
      bareIdOf m.labelEntry ++ "::" ++ v ∈ current) →
      stagedNewLabels current ms' = [] := by
    intro ms'
    induction ms' with
    | nil => intro _; rfl
    | cons m rest ih =>
      intro h
      obtain ⟨v, hv⟩ := h m (List.mem_cons_self _ _)
      have h2 : (current.any fun l =>
          l == bareIdOf m.labelEntry || strStartsWith l (bareIdOf m.labelEntry ++ "::")) = true := by
        rw [List.any_eq_true]
        refine ⟨bareIdOf m.labelEntry ++ "::" ++ v, hv, ?_⟩
        have hpre : strStartsWith (bareIdOf m.labelEntry ++ "::" ++ v)
            (bareIdOf m.labelEntry ++ "::") = true :=
          strStartsWith_append (bareIdOf m.labelEntry ++ "::") v
        simp [hpre]
      have htail := ih (fun m' hm' => h m' (List.mem_cons_of_mem _ hm'))
      by_cases h1 : (current.any fun l => l == m.labelEntry) = true
      · simp [stagedNewLabels, h1, htail]
      · simp [stagedNewLabels, h1, h2, htail]
  cases ms with
  | nil => rfl
  | cons m rest =>
    have := hstag (m :: rest) hconf
    simp [applyPathRuleMatches, this]

/-- C5 witness: existing `priority::2` blocks a proposed `priority::3`. -/
theorem apply_keeps_existing_valued_label_witness :
    applyPathRuleMatches (some ["priority::2"])
        [{ rule := rule3, labelEntry := "priority::3" }] = some ["priority::2"] :=
  apply_keeps_existing_valued_label ["priority::2"]
    [{ rule := rule3, labelEntry := "priority::3" }]
    (by intro m hm
        rw [List.mem_singleton] at hm
        subst hm
        exact ⟨"2", by decide⟩)

/- Helper lemmas about the evaluator's sort. -/

lemma mem_insertByPathLength (y r : PathRule) :
    ∀ l : List PathRule, y ∈ insertByPathLength r l ↔ y = r ∨ y ∈ l := by
  intro l
  induction l with
  | nil => simp [insertByPathLength]
  | cons x xs ih =>
    simp only [insertByPathLength]
    split
    · simp only [List.mem_cons, ih]
      tauto
    · simp only [List.mem_cons]

lemma pairwise_insertByPathLength (r : PathRule) :
    ∀ l : List PathRule,
      List.Pairwise (fun a b => b.path.length ≤ a.path.length) l →
      List.Pairwise (fun a b => b.path.length ≤ a.path.length) (insertByPathLength r l) := by
  intro l
  induction l with
  | nil => intro _; simp [insertByPathLength]
  | cons x xs ih =>
    intro hp
    rw [List.pairwise_cons] at hp
    obtain ⟨hx, hxs⟩ := hp
    simp only [insertByPathLength]
    split
    · rename_i hlt
      rw [List.pairwise_cons]
      refine ⟨?_, ih hxs⟩
      intro b hb
      rcases (mem_insertByPathLength b r xs).mp hb with rfl | hbxs
      · exact Nat.le_of_lt hlt
      · exact hx b hbxs
    · rename_i hge
      rw [List.pairwise_cons]
      refine ⟨?_, ?_⟩
      · intro b hb
        rcases List.mem_cons.mp hb with rfl | hbxs
        · exact Nat.le_of_not_lt hge
        · exact Nat.le_trans (hx b hbxs) (Nat.le_of_not_lt hge)
      · rw [List.pairwise_cons]
        exact ⟨hx, hxs⟩

lemma sortByPathLengthDesc_pairwise :
    ∀ l : List PathRule,
      List.Pairwise (fun a b => b.path.length ≤ a.path.length) (sortByPathLengthDesc l) := by
  intro l
  induction l with
  | nil => exact List.Pairwise.nil
  | cons x xs ih => exact pairwise_insertByPathLength x _ ih

lemma filter_insertByPathLength (r : PathRule) (n : Nat) :
    ∀ l : List PathRule,
      (insertByPathLength r l).filter (fun x => x.path.length == n)
        = if r.path.length = n
          then r :: l.filter (fun x => x.path.length == n)
          else l.filter (fun x => x.path.length == n) := by
  intro l
  induction l with
  | nil =>
    by_cases h : r.path.length = n
    · simp [insertByPathLength, h]
    · simp [insertByPathLength, h]
  | cons x xs ih =>
    simp only [insertByPathLength]
    split
    · rename_i hlt
      rw [List.filter_cons, ih, List.filter_cons]
      by_cases h : r.path.length = n
      · have hxn : ¬ x.path.length = n := by omega
        simp [h, hxn]
      · simp [h]
    · by_cases h : r.path.length = n
      · simp [List.filter_cons, h]
      · simp [List.filter_cons, h]

lemma sortByPathLengthDesc_filter_stable (n : Nat) :
    ∀ l : List PathRule,
      (sortByPathLengthDesc l).filter (fun x => x.path.length == n)
        = l.filter (fun x => x.path.length == n) := by
  intro l
  induction l with
  | nil => rfl
  | cons x xs ih =>
    show (insertByPathLength x (sortByPathLengthDesc xs)).filter _ = _
    rw [filter_insertByPathLength, ih, List.filter_cons]
    by_cases h : x.path.length = n
    · simp [h]
    · simp [h]

lemma evalLoop_map_rule_sublist (cwd wd : String) (labels : Option (List LabelConfig)) :
    ∀ (rules : List PathRule) (seen : List String),
      ((evalLoop cwd wd labels rules seen).map fun m => m.rule).Sublist rules := by
  intro rules
  induction rules with
  | nil => intro seen; simp [evalLoop]
  | cons rule rest ih =>
    intro seen
    simp only [evalLoop]
    split
    · exact (ih seen).cons _
    · split
      · exact (ih seen).cons _
      · split
        · exact (ih seen).cons _
        · simp only [List.map_cons]
          exact (ih _).cons₂ _

/-- C6: the evaluator's candidate ordering.  (1) The sorted rule list is
arranged by path string length, longest first; (2) the sort is stable —
restricting either the input or the sorted output to the rules of any one
path length yields the same list, so equal-length rules keep their input
order; (3) the matches returned by Evaluate are, rule-wise, an in-order
sublist of that sorted list; (4) concretely, prefix rules for `/a` (label
`X`, declared first) and `/a/b` (label `Y`) evaluated at `/a/b/c` yield both
matches with `Y` ordered before `X`. -/
theorem evaluate_sorted_stable_by_path_length :
    (∀ l : List PathRule,
        List.Pairwise (fun a b => b.path.length ≤ a.path.length) (sortByPathLengthDesc l)) ∧
    (∀ (l : List PathRule) (n : Nat),
        (sortByPathLengthDesc l).filter (fun r => r.path.length == n)
          = l.filter (fun r => r.path.length == n)) ∧
    (∀ (cwd : String) (wd : Option String) (config : PathRulesConfig)
        (labels : Option (List LabelConfig)),
        ((evaluatePathRules cwd wd config labels).map fun m => m.rule).Sublist
          (sortByPathLengthDesc (config.rules.filter fun r => r.enabled != some false))) ∧
    evaluatePathRules "/" (some "/a/b/c") xyConfig none
      = [{ rule := ruleY, labelEntry := "Y" }, { rule := ruleX, labelEntry := "X" }] := by
  refine ⟨sortByPathLengthDesc_pairwise, fun l n => sortByPathLengthDesc_filter_stable n l,
    ?_, rfl⟩
  intro cwd wd config labels
  match wd with
  | none => exact List.nil_sublist _
  | some w =>
    by_cases hw : (w == "") = true
    · simp [evaluatePathRules, hw]
    · simp only [evaluatePathRules, hw]
      exact evalLoop_map_rule_sublist cwd w labels _ []

/-- C4 counterexample: for rule path `/a` and working directory `/a/..b`
(a genuine subdirectory of `/a` whose name begins with two dots), the
relative path is the single ordinary segment `..b`, so the claim's
segment-level reading says Matches is true, but `matchesPath` — which tests
the character-wise `rel.startsWith('..')` — returns false. -/
theorem matchesPath_pfx_segment_wording_cex :
    matchesPath "/" "/a" "/a/..b" .pfx = false
    ∧ matchesPathSpecPfx "/" "/a" "/a/..b" = true :=
  ⟨rfl, rfl⟩

/-- Prefix-mode matching as the code computes it: the relative path is
empty, or does not start with the two characters `..` and is not itself
absolute. -/
def matchesPathCharPfx (cwd rulePath workingDirectory : String) : Bool :=
  let rel := posixRelative (normalizePath cwd rulePath) (normalizePath cwd workingDirectory)
  rel == "" || (!strStartsWith rel ".." && !posixIsAbsolute rel)

/-- C4 amended: prefix-mode Matches returns true iff, after normalization,
the relative path from rulePath to workingDirectory is empty, or it does not
start with the two-character string ".." and is not itself absolute; the
claim's concrete boundary examples hold: a rule for `/a/b` does not match
`/a/b2`, and matches `/a/b` and `/a/b/c`. -/
theorem matchesPath_pfx_char_check :
    (∀ cwd rulePath workingDirectory : String,
        matchesPath cwd rulePath workingDirectory .pfx
          = matchesPathCharPfx cwd rulePath workingDirectory) ∧
    matchesPath "/" "/a/b" "/a/b2" .pfx = false ∧
    matchesPath "/" "/a/b" "/a/b" .pfx = true ∧
    matchesPath "/" "/a/b" "/a/b/c" .pfx = true :=
  ⟨fun _ _ _ => rfl, rfl, rfl, rfl⟩

/-- C7: exact-mode Matches returns true iff the two normalized path strings
are equal; concretely a rule for `/a/b` in exact mode matches `/a/b` only,
and neither `/a/b/c` nor `/a`. -/
theorem matchesPath_exact_strict :
    (∀ cwd rulePath workingDirectory : String,
        matchesPath cwd rulePath workingDirectory .exact
          = (normalizePath cwd rulePath == normalizePath cwd workingDirectory)) ∧
    matchesPath "/" "/a/b" "/a/b" .exact = true ∧
    matchesPath "/" "/a/b" "/a/b/c" .exact = false ∧
    matchesPath "/" "/a/b" "/a" .exact = false :=
  ⟨fun _ _ _ => rfl, rfl, rfl, rfl⟩

/- JSON fixtures for the storage claims. -/

/-- A well-formed raw rule entry (`r1`, `/a`, exact, label `l1`). -/
def validJson1 : Json := Json.obj [("id", Json.str "r1"), ("path", Json.str "/a"),
  ("match", Json.str "exact"), ("labelId", Json.str "l1")]

/-- An invalid raw rule entry: the required `path` field is missing. -/
def invalidJson : Json := Json.obj [("id", Json.str "bad"),
  ("match", Json.str "exact"), ("labelId", Json.str "l2")]

/-- A second well-formed raw rule entry (`r2`, `/b`, prefix, label `l2`). -/
def validJson2 : Json := Json.obj [("id", Json.str "r2"), ("path", Json.str "/b"),
  ("match", Json.str "prefix"), ("labelId", Json.str "l2")]

/-- A stored document with one invalid rule between two valid ones. -/
def exDoc : Json := Json.obj [("version", Json.num 1),
  ("rules", Json.arr [validJson1, invalidJson, validJson2])]

/-- C8: Load degrades instead of failing.  An absent file, an unreadable or
unparseable file, and a malformed top-level value all yield the empty
default config; for a well-formed document, exactly the entries passing
`isValidRule` are returned, in their original order; concretely, a document
with one invalid rule (missing `path`) between two valid ones loads as
exactly the two valid rules. -/
theorem load_best_effort_recovery :
    loadPathRulesConfig none = createDefaultConfig ∧
    loadPathRulesConfig (some none) = createDefaultConfig ∧
    loadPathRulesConfig (some (some Json.null)) = createDefaultConfig ∧
    (∀ s : String, loadPathRulesConfig (some (some (Json.str s))) = createDefaultConfig) ∧
    (∀ (v : Json) (rs : List Json),
        (loadPathRulesConfig
            (some (some (Json.obj [("version", v), ("rules", Json.arr rs)])))).rules
          = (rs.filter isValidRule).map jsonToRule) ∧
    loadPathRulesConfig (some (some exDoc))
      = { version := 1, rules := [
            { id := "r1", path := "/a", matchMode := .exact, labelId := "l1",
              value := none, enabled := none, description := none },
            { id := "r2", path := "/b", matchMode := .pfx, labelId := "l2",
              value := none, enabled := none, description := none }] } :=
  ⟨rfl, rfl, rfl, fun _ => rfl, fun _ _ => rfl, rfl⟩

/-- C10: the config returned by Load always carries version 1, whatever the
stored document contains, and the stored `version` field is ignored: adding
any `version` binding to a document changes nothing about the loaded rules. -/
theorem load_version_always_one :
    (∀ document : Option (Option Json), (loadPathRulesConfig document).version = 1) ∧
    (∀ (j : Json) (fields : List (String × Json)),
        (loadPathRulesConfig (some (some (Json.obj (("version", j) :: fields))))).rules
          = (loadPathRulesConfig (some (some (Json.obj fields)))).rules) := by
  constructor
  · intro document
    rcases document with _ | _ | parsed
    · rfl
    · rfl
    · cases parsed <;> rfl
  · intro j fields
    rfl

end PathRules
